import Mathlib

/-!
Verification of the hash/grouping-sets aggregation executor node
(`src/backend/executor/nodeAgg.c`) against its natural-language
specification.  The C code is shallowly embedded: Datum values are
modelled as `Nat`, null flags as `Bool`, machine integers as `Nat`
with explicit `% 2 ^ w` where overflow matters, and the stateful
routines as explicit state-passing functions.
-/

namespace NodeAgg

/-! ### Per-group transition state (`AggStatePerGroupData`)

`transValue`/`transValueIsNull`/`noTransValue` mirror the three fields of
`AggStatePerGroupData`. -/

structure PerGroupState where
  transValue : Nat
  transValueIsNull : Bool
  noTransValue : Bool
  deriving Repr, DecidableEq

/-- The per-transition-state descriptor (`AggStatePerTransData`), restricted
to the fields read by `initialize_aggregate` and
`advance_transition_function`: strictness of the transition function, its
declared argument count, the cached initial value with its null flag, and
the transition function itself.  The transition function receives the
current state value and null flag plus the argument vector (positions 1..n
of the fcinfo) and returns the result value with its null flag. -/
structure PerTrans where
  transfn_strict : Bool
  numTransInputs : Nat
  initValue : Nat
  initValueIsNull : Bool
  transfn : Nat → Bool → List (Nat × Bool) → Nat × Bool

/-- Embedding of `initialize_aggregate` (nodeAgg.c:513-586), state part: copy the initial
value into the group state, set `transValueIsNull` and `noTransValue` from
`initValueIsNull`. -/
def initialize_aggregate (pertrans : PerTrans) : PerGroupState :=
  { transValue := pertrans.initValue
    transValueIsNull := pertrans.initValueIsNull
    noTransValue := pertrans.initValueIsNull }

/-- Embedding of `advance_transition_function` (nodeAgg.c:642-753).  `args` holds the
preloaded argument values and null flags (fcinfo positions 1 and up).
Returns the new group state and whether the transition function was
invoked.  The by-reference copying and expanded-object handling of the C
code manage memory only and do not change the abstract state. -/
def advance_transition_function (pertrans : PerTrans) (st : PerGroupState)
    (args : List (Nat × Bool)) : PerGroupState × Bool :=
  if pertrans.transfn_strict then
    if args.any (fun a => a.2) then
      (st, false)
    else if st.noTransValue then
      ({ transValue := (args.headD (0, false)).1
         transValueIsNull := false
         noTransValue := false }, false)
    else if st.transValueIsNull then
      (st, false)
    else
      let r := pertrans.transfn st.transValue st.transValueIsNull args
      ({ transValue := r.1, transValueIsNull := r.2
         noTransValue := st.noTransValue }, true)
  else
    let r := pertrans.transfn st.transValue st.transValueIsNull args
    ({ transValue := r.1, transValueIsNull := r.2
       noTransValue := st.noTransValue }, true)

/-- Advance one group state over a list of argument tuples (one call to
`advance_transition_function` per input tuple, as the per-tuple driver
does), counting the number of times the transition function is actually
invoked. -/
def advance_many (pertrans : PerTrans) :
    PerGroupState → List (List (Nat × Bool)) → PerGroupState × Nat
  | st, [] => (st, 0)
  | st, args :: argss =>
      let r := advance_transition_function pertrans st args
      let rest := advance_many pertrans r.1 argss
      (rest.1, (if r.2 then 1 else 0) + rest.2)

/-- C1: for a strict transition function, a null argument leaves the group
state untouched and the transition function uninvoked; with all arguments
non-null and `noTransValue` set, the state adopts the first argument value
with both flags cleared, again without invoking the transition function;
consequently a null initial value and all-null inputs leave the state null
(indeed exactly the initialized state) with zero transition-function
calls. -/
theorem advance_strict_semantics (pertrans : PerTrans)
    (hstrict : pertrans.transfn_strict = true) :
    (∀ st args, args.any (fun a => a.2) = true →
        advance_transition_function pertrans st args = (st, false)) ∧
    (∀ st (a : Nat × Bool) rest, st.noTransValue = true →
        ((a :: rest).any (fun x => x.2)) = false →
        advance_transition_function pertrans st (a :: rest) =
          ({ transValue := a.1, transValueIsNull := false,
             noTransValue := false }, false)) ∧
    (∀ argss, pertrans.initValueIsNull = true →
        (∀ args ∈ argss, args ≠ [] ∧ ∀ ar ∈ args, ar.2 = true) →
        advance_many pertrans (initialize_aggregate pertrans) argss =
          (initialize_aggregate pertrans, 0) ∧
        (advance_many pertrans (initialize_aggregate pertrans)
          argss).1.transValueIsNull = true) := by
  refine ⟨?_, ?_, ?_⟩
  · intro st args hnull
    simp [advance_transition_function, hstrict, hnull]
  · intro st a rest hno hnonull
    simp [advance_transition_function, hstrict, hnonull, hno]
  · intro argss hinit hall
    have hstep : ∀ args ∈ argss,
        advance_transition_function pertrans
          (initialize_aggregate pertrans) args =
          (initialize_aggregate pertrans, false) := by
      intro args hmem
      obtain ⟨hne, hnulls⟩ := hall args hmem
      obtain ⟨a, rest, rfl⟩ := List.exists_cons_of_ne_nil hne
      have hany : ((a :: rest).any (fun x => x.2)) = true :=
        List.any_eq_true.mpr ⟨a, List.mem_cons_self a rest,
          hnulls a (List.mem_cons_self a rest)⟩
      simp [advance_transition_function, hstrict, hany]
    have hmain : ∀ l : List (List (Nat × Bool)),
        (∀ args ∈ l, advance_transition_function pertrans
          (initialize_aggregate pertrans) args =
          (initialize_aggregate pertrans, false)) →
        advance_many pertrans (initialize_aggregate pertrans) l =
          (initialize_aggregate pertrans, 0) := by
      intro l
      induction l with
      | nil => intro _; rfl
      | cons args rest ih =>
          intro hs
          have h1 := hs args (List.mem_cons_self args rest)
          have h2 := ih (fun a ha => hs a (List.mem_cons_of_mem _ ha))
          simp [advance_many, h1, h2]
    refine ⟨hmain argss hstep, ?_⟩
    rw [hmain argss hstep]
    simp [initialize_aggregate, hinit]

/-- Concrete strict transition descriptor used to witness the strict-path
theorems: strict sum-like transfn, one argument, null initial value. -/
def strictSumPT : PerTrans :=
  { transfn_strict := true
    numTransInputs := 1
    initValue := 0
    initValueIsNull := true
    transfn := fun v _ args => (v + (args.headD (0, false)).1, false) }

theorem advance_strict_semantics_witness :
    strictSumPT.transfn_strict = true ∧
    advance_many strictSumPT (initialize_aggregate strictSumPT)
        [[(5, true)], [(7, true)]] =
      (initialize_aggregate strictSumPT, 0) := by
  refine ⟨rfl, ?_⟩
  exact ((advance_strict_semantics strictSumPT rfl).2.2
    [[(5, true)], [(7, true)]] rfl (by decide)).1

/-- Concrete non-strict transition descriptor: non-strict transfn returning
a non-null value, null initial value. -/
def nonstrictPT : PerTrans :=
  { transfn_strict := false
    numTransInputs := 1
    initValue := 0
    initValueIsNull := true
    transfn := fun _ _ _ => (7, false) }

/-- C8 counterexample: for a non-strict transition function with a null
initial value, a single Advance that produces a non-null result leaves
`noTransValue = true` while `transValueIsNull = false`, so the claimed
invariant `no_value_yet implies is_null` fails, and `no_value_yet` did not
become false at the first successful non-null update. -/
theorem noTransValue_invariant_counterexample :
    ((advance_transition_function nonstrictPT
        (initialize_aggregate nonstrictPT) [(3, false)]).1.noTransValue
      = true) ∧
    ((advance_transition_function nonstrictPT
        (initialize_aggregate nonstrictPT)
        [(3, false)]).1.transValueIsNull = false) := by
  exact ⟨rfl, rfl⟩

/-- C8 amended: for a STRICT transition function, `noTransValue` implies
`transValueIsNull` after `initialize_aggregate` and is preserved by every
`advance_transition_function`; and once `noTransValue` is false it stays
false for the lifetime of the group state (for any transition function). -/
theorem noTransValue_invariant_strict (pertrans : PerTrans)
    (hstrict : pertrans.transfn_strict = true) :
    ((initialize_aggregate pertrans).noTransValue = true →
      (initialize_aggregate pertrans).transValueIsNull = true) ∧
    (∀ st args, (st.noTransValue = true → st.transValueIsNull = true) →
      ((advance_transition_function pertrans st args).1.noTransValue = true →
        (advance_transition_function pertrans st
          args).1.transValueIsNull = true)) ∧
    (∀ st args, st.noTransValue = false →
      (advance_transition_function pertrans st args).1.noTransValue
        = false) := by
  refine ⟨fun h => h, ?_, ?_⟩
  · intro st args hinv
    simp only [advance_transition_function, hstrict, if_true]
    split
    · exact hinv
    · split
      · simp
      · split
        · exact hinv
        · rename_i hno _
          simp only [Bool.not_eq_true] at hno
          simp [hno]
  · intro st args hno
    simp only [advance_transition_function, hstrict, if_true]
    split
    · exact hno
    · split
      · rename_i h
        exact absurd hno (by simp [h])
      · split
        · exact hno
        · exact hno

theorem noTransValue_invariant_strict_witness :
    ((initialize_aggregate strictSumPT).noTransValue = true →
      (initialize_aggregate strictSumPT).transValueIsNull = true) ∧
    (advance_transition_function strictSumPT
        { transValue := 4, transValueIsNull := false, noTransValue := false }
        [(3, false)]).1.noTransValue = false :=
  ⟨(noTransValue_invariant_strict strictSumPT rfl).1,
   (noTransValue_invariant_strict strictSumPT rfl).2.2
     { transValue := 4, transValueIsNull := false, noTransValue := false }
     [(3, false)] rfl⟩

/-! ### Hash table lookup, memory limits and the spill flags -/

/-- The parts of `AggState` driving hashed aggregation: the set of group
keys present in the current hash table (keys abstracted as `Nat`), the
`hash_no_new_groups` / `hash_spilled` flags, the current and limit
counters, and the `spilled` build flag of the compiled transition
expression (`phase->evaltrans`). -/
structure HashState where
  table : List Nat
  no_new_groups : Bool
  spilled : Bool
  ngroups_current : Nat
  mem_current : Nat
  mem_limit : Nat
  ngroups_limit : Nat
  evaltransSpillAware : Bool
  deriving Repr, DecidableEq

/-- Modelled from the spec: `LookupTupleHashEntryHash` lives in
`execGrouping.c`, which is not among this repository's source files.  Per
the spec (sections 4.3.1-4.3.2), lookup uses the precomputed hash and
finds the entry for the grouping key; a missing entry is created only when
the caller passes a non-NULL `isnew` out-parameter (`create = true`), in
which case `isnew` is reported `true` for the fresh entry; with a NULL
`isnew` the function never creates and reports a miss.  Returns the
(possibly extended) key set, the found entry (`none` means a miss without
creation), and the `isnew` flag. -/
def LookupTupleHashEntryHash (table : List Nat) (key : Nat)
    (create : Bool) : List Nat × Option Nat × Bool :=
  if key ∈ table then (table, some key, false)
  else if create then (key :: table, some key, true)
  else (table, none, false)

/-- Embedding of `hash_recompile_expressions` (nodeAgg.c:1693-1711): rebuild
`phase->evaltrans` with the `spilled` build flag set to the current value
of `aggstate->hash_spilled`. -/
def hash_recompile_expressions (st : HashState) : HashState :=
  { st with evaltransSpillAware := st.spilled }

/-- Embedding of `lookup_hash_entry` (nodeAgg.c:1813-1884).  `memAllocated` is the
value `MemoryContextMemAllocated` reports for the hash context after the
insert (memory introspection is outside the abstract state).  When
`hash_no_new_groups` is set the `isnew` out-parameter is not passed
(`p_isnew = NULL`).  After a successful insert the counters are refreshed
and, if a limit is exceeded while at least one group exists, the
no-new-groups flag is raised and, on first entry into spill mode, the
transition expression is recompiled. -/
def lookup_hash_entry (st : HashState) (key : Nat) (memAllocated : Nat) :
    HashState × Option Nat :=
  let r := LookupTupleHashEntryHash st.table key (!st.no_new_groups)
  match r with
  | (_, none, _) => (st, none)
  | (table', some entry, true) =>
      let st1 := { st with
        table := table'
        ngroups_current := st.ngroups_current + 1
        mem_current := memAllocated }
      let st2 :=
        if 0 < st1.ngroups_current ∧
            (st1.mem_limit < st1.mem_current ∨
             st1.ngroups_limit < st1.ngroups_current) then
          let st3 := { st1 with no_new_groups := true }
          if st3.spilled then st3
          else hash_recompile_expressions { st3 with spilled := true }
        else st1
      (st2, some entry)
  | (_, some entry, false) => (st, some entry)

theorem lookup_locked_fixed (st : HashState) (hn : st.no_new_groups = true)
    (key mem : Nat) : (lookup_hash_entry st key mem).1 = st := by
  by_cases hk : key ∈ st.table
  · simp [lookup_hash_entry, LookupTupleHashEntryHash, hk]
  · simp [lookup_hash_entry, LookupTupleHashEntryHash, hk, hn]

theorem lookup_locked_foldl (st : HashState)
    (hn : st.no_new_groups = true) :
    ∀ kms : List (Nat × Nat),
      kms.foldl (fun s km => (lookup_hash_entry s km.1 km.2).1) st = st
  | [] => rfl
  | km :: rest => by
      rw [List.foldl_cons, lookup_locked_fixed st hn km.1 km.2,
        lookup_locked_foldl st hn rest]

/-- C2: once `hash_no_new_groups` is raised -- which happens exactly when a
successful insert leaves the allocated bytes above the byte limit or the
group count above the group limit (the count being positive) -- a lookup
never creates an entry: it returns an existing entry or a miss, leaving
the state untouched (hence every subsequent lookup does too); and the
first transition into spill mode recompiles the transition expression to
the spilling-aware variant. -/
theorem no_new_groups_semantics (st : HashState) (key mem : Nat) :
    (st.no_new_groups = true →
      (lookup_hash_entry st key mem).1 = st ∧
      (lookup_hash_entry st key mem).2 =
        (if key ∈ st.table then some key else none)) ∧
    (st.no_new_groups = true → ∀ kms : List (Nat × Nat),
      kms.foldl (fun s km => (lookup_hash_entry s km.1 km.2).1) st = st) ∧
    (st.no_new_groups = false → key ∉ st.table →
      ((lookup_hash_entry st key mem).1.no_new_groups = true ↔
        (st.mem_limit < mem ∨ st.ngroups_limit < st.ngroups_current + 1)) ∧
      (lookup_hash_entry st key mem).1.table = key :: st.table ∧
      0 < (lookup_hash_entry st key mem).1.ngroups_current) ∧
    (key ∈ st.table →
      (lookup_hash_entry st key mem).1 = st ∧
      (lookup_hash_entry st key mem).2 = some key) ∧
    (st.spilled = false →
      (lookup_hash_entry st key mem).1.spilled = true →
      (lookup_hash_entry st key mem).1.evaltransSpillAware = true) := by
  by_cases hk : key ∈ st.table
  · refine ⟨?_, ?_, ?_, ?_, ?_⟩
    · intro _
      simp [lookup_hash_entry, LookupTupleHashEntryHash, hk]
    · intro hn kms
      exact lookup_locked_foldl st hn kms
    · intro _ hk2
      exact absurd hk hk2
    · intro _
      simp [lookup_hash_entry, LookupTupleHashEntryHash, hk]
    · intro hsp
      simp [lookup_hash_entry, LookupTupleHashEntryHash, hk, hsp]
  · by_cases hn : st.no_new_groups = true
    · refine ⟨?_, ?_, ?_, ?_, ?_⟩
      · intro _
        simp [lookup_hash_entry, LookupTupleHashEntryHash, hk, hn]
      · intro _ kms
        exact lookup_locked_foldl st hn kms
      · intro hn2
        rw [hn] at hn2
        exact absurd hn2 (by simp)
      · intro hk2
        exact absurd hk2 hk
      · intro hsp
        simp [lookup_hash_entry, LookupTupleHashEntryHash, hk, hn, hsp]
    · simp only [Bool.not_eq_true] at hn
      refine ⟨?_, ?_, ?_, ?_, ?_⟩
      · intro hn2
        rw [hn] at hn2
        exact absurd hn2 (by simp)
      · intro hn2
        rw [hn] at hn2
        exact absurd hn2 (by simp)
      · intro _ _
        by_cases hlim : st.mem_limit < mem ∨
            st.ngroups_limit < st.ngroups_current + 1
        · constructor
          · constructor
            · intro _
              exact hlim
            · intro _
              by_cases hsp : st.spilled
              · simp [lookup_hash_entry, LookupTupleHashEntryHash, hk, hn,
                  hlim, hsp, hash_recompile_expressions]
              · simp [lookup_hash_entry, LookupTupleHashEntryHash, hk, hn,
                  hlim, hsp, hash_recompile_expressions]
          · by_cases hsp : st.spilled
            · simp [lookup_hash_entry, LookupTupleHashEntryHash, hk, hn,
                hlim, hsp, hash_recompile_expressions]
            · simp [lookup_hash_entry, LookupTupleHashEntryHash, hk, hn,
                hlim, hsp, hash_recompile_expressions]
        · simp [lookup_hash_entry, LookupTupleHashEntryHash, hk, hn, hlim]
      · intro hk2
        exact absurd hk2 hk
      · intro hsp
        by_cases hlim : st.mem_limit < mem ∨
            st.ngroups_limit < st.ngroups_current + 1
        · simp [lookup_hash_entry, LookupTupleHashEntryHash, hk, hn, hlim,
            hsp, hash_recompile_expressions]
        · simp [lookup_hash_entry, LookupTupleHashEntryHash, hk, hn, hlim,
            hsp]

theorem no_new_groups_semantics_witness :
    (lookup_hash_entry
      { table := [3], no_new_groups := true, spilled := true
        ngroups_current := 1, mem_current := 10, mem_limit := 100
        ngroups_limit := 1, evaltransSpillAware := true } 5 20).1 =
      { table := [3], no_new_groups := true, spilled := true
        ngroups_current := 1, mem_current := 10, mem_limit := 100
        ngroups_limit := 1, evaltransSpillAware := true } :=
  ((no_new_groups_semantics
    { table := [3], no_new_groups := true, spilled := true
      ngroups_current := 1, mem_current := 10, mem_limit := 100
      ngroups_limit := 1, evaltransSpillAware := true } 5 20).1 rfl).1

/-! ### Spill partition choice and hash-bit allocation -/

def HASH_MIN_PARTITIONS : Nat := 4

def HASH_MAX_PARTITIONS : Nat := 256

/-- Modelled from the spec: `my_log2` lives in `dynahash.c`, which is not
among this repository's source files.  Per the spec's partition choice
(section 4.3.3), the partition count is rounded up to a power of two and
`partition_bits = log2(partitions)`: `my_log2 n` is the least `i` with
`n ≤ 2 ^ i`, computed by the ceiling-halving recursion. -/
def my_log2_aux : Nat → Nat → Nat
  | 0, _ => 0
  | fuel + 1, n => if n ≤ 1 then 0 else my_log2_aux fuel ((n + 1) / 2) + 1

/-- Modelled from the spec: see `my_log2_aux`. -/
def my_log2 (n : Nat) : Nat := my_log2_aux n n

theorem my_log2_aux_eq_clog :
    ∀ fuel n, n ≤ fuel → my_log2_aux fuel n = Nat.clog 2 n := by
  intro fuel
  induction fuel with
  | zero =>
      intro n hn
      have h0 : n = 0 := Nat.le_zero.mp hn
      subst h0
      simp [my_log2_aux]
  | succ fuel ih =>
      intro n hn
      by_cases h1 : n ≤ 1
      · rw [my_log2_aux, if_pos h1, Nat.clog_of_right_le_one h1]
      · push_neg at h1
        have h2 : 2 ≤ n := h1
        have hrec : (n + 1) / 2 ≤ fuel := by omega
        have hstep := Nat.clog_of_two_le (b := 2) (n := n)
          (by norm_num) h2
        have harg : (n + 2 - 1) / 2 = (n + 1) / 2 := by omega
        rw [my_log2_aux, if_neg (by omega), ih ((n + 1) / 2) hrec,
          hstep, harg]

theorem my_log2_eq_clog (n : Nat) : my_log2 n = Nat.clog 2 n :=
  my_log2_aux_eq_clog n n le_rfl

theorem my_log2_le_of_le {m n : Nat} (h : m ≤ n) :
    my_log2 m ≤ my_log2 n := by
  rw [my_log2_eq_clog, my_log2_eq_clog]
  exact Nat.clog_mono_right 2 h

theorem le_two_pow_my_log2 (n : Nat) : n ≤ 2 ^ my_log2 n := by
  rw [my_log2_eq_clog]
  exact Nat.le_pow_clog (by norm_num) n

/-- Embedding of `hash_choose_num_spill_partitions` (nodeAgg.c:1769-1798).  The C code
computes `mem_needed = HASH_PARTITION_FACTOR * input_groups *
hashentrysize` (`HASH_PARTITION_FACTOR = 1.50`) and `partition_limit =
(work_mem * 1024 * 0.25) / BLCKSZ` in double precision before truncating
to integers; on the integral inputs used here these are exactly the
integer expressions below.  `work_mem` is in kilobytes; `blcksz` is the
build-time block size `BLCKSZ`. -/
def hash_choose_num_spill_partitions (work_mem blcksz : Nat)
    (input_groups : Nat) (hashentrysize : Nat) : Nat :=
  let partition_limit := work_mem * 1024 / 4 / blcksz
  let mem_needed := 3 * input_groups * hashentrysize / 2
  let npartitions := 1 + mem_needed / (work_mem * 1024)
  let np1 := if partition_limit < npartitions then partition_limit
    else npartitions
  let np2 := if np1 < HASH_MIN_PARTITIONS then HASH_MIN_PARTITIONS else np1
  let np3 := if HASH_MAX_PARTITIONS < np2 then HASH_MAX_PARTITIONS else np2
  np3

/-- Partition-shape part of a `HashAggSpill`: number of output partitions
and the number of hash bits they consume. -/
structure HashAggSpill where
  n_partitions : Nat
  partition_bits : Nat
  deriving Repr, DecidableEq

/-- Embedding of `hash_spill_init` (nodeAgg.c:2691-2739), partition-count and
partition-bits part (tape bookkeeping omitted).  Both the fresh and the
re-spill branch assign the same `partition_bits` and `n_partitions`:
round the chosen count up to a power of two, truncating the bits so the
32 hash bits are not exhausted. -/
def hash_spill_init (input_bits : Nat) (input_groups : Nat)
    (hashentrysize work_mem blcksz : Nat) : HashAggSpill :=
  let npartitions := hash_choose_num_spill_partitions work_mem blcksz
    input_groups hashentrysize
  let pb := my_log2 npartitions
  let pb2 := if 32 ≤ pb + input_bits then 32 - input_bits else pb
  { partition_bits := pb2, n_partitions := 2 ^ pb2 }

/-- Embedding of `hash_spill_tuple` (nodeAgg.c:2747-2784), partition selection: the C
computation `(hash << input_bits) >> (32 - spill->partition_bits)` on
`uint32`, with partition 0 when `partition_bits` is zero. -/
def spill_partition (spill : HashAggSpill) (input_bits : Nat)
    (hash : Nat) : Nat :=
  if spill.partition_bits = 0 then 0
  else hash * 2 ^ input_bits % 2 ^ 32 / 2 ^ (32 - spill.partition_bits)

theorem shift_window_eq (ib pb hash : Nat) (hsum : ib + pb ≤ 32)
    (_hh : hash < 2 ^ 32) :
    hash * 2 ^ ib % 2 ^ 32 / 2 ^ (32 - pb) =
      hash / 2 ^ (32 - ib - pb) % 2 ^ pb := by
  have e1 : (2 : Nat) ^ 32 = 2 ^ (32 - ib) * 2 ^ ib := by
    rw [← pow_add]
    congr 1
    omega
  have e2 : (2 : Nat) ^ (32 - pb) = 2 ^ ib * 2 ^ (32 - ib - pb) := by
    rw [← pow_add]
    congr 1
    omega
  have e3 : (2 : Nat) ^ (32 - ib) = 2 ^ (32 - ib - pb) * 2 ^ pb := by
    rw [← pow_add]
    congr 1
    omega
  rw [e1, Nat.mul_mod_mul_right, e2, mul_comm (hash % 2 ^ (32 - ib))
    (2 ^ ib), Nat.mul_div_mul_left _ _ (Nat.pos_pow_of_pos ib
    (by norm_num)), ← Nat.mod_mul_right_div_self, ← e3]

/-- C3: for every spill partition set, `input_bits + partition_bits ≤ 32`
(`partition_bits` being truncated when the sum would exceed 32), and the
partition index of a spilled tuple equals
`(hash << input_bits) >> (32 - partition_bits)` (0 when `partition_bits`
is 0), which extracts exactly the window of `partition_bits` hash bits
just below the `input_bits` already consumed -- so each recursion level
uses a disjoint window of high-order hash bits. -/
theorem spill_partition_window (input_bits input_groups hashentrysize
    work_mem blcksz hash : Nat) (hib : input_bits ≤ 32)
    (hh : hash < 2 ^ 32) :
    input_bits + (hash_spill_init input_bits input_groups hashentrysize
      work_mem blcksz).partition_bits ≤ 32 ∧
    spill_partition (hash_spill_init input_bits input_groups hashentrysize
        work_mem blcksz) input_bits hash =
      (if (hash_spill_init input_bits input_groups hashentrysize work_mem
          blcksz).partition_bits = 0 then 0
       else hash * 2 ^ input_bits % 2 ^ 32 /
         2 ^ (32 - (hash_spill_init input_bits input_groups hashentrysize
           work_mem blcksz).partition_bits)) ∧
    spill_partition (hash_spill_init input_bits input_groups hashentrysize
        work_mem blcksz) input_bits hash =
      hash / 2 ^ (32 - input_bits - (hash_spill_init input_bits
          input_groups hashentrysize work_mem blcksz).partition_bits) %
        2 ^ (hash_spill_init input_bits input_groups hashentrysize
          work_mem blcksz).partition_bits := by
  set spill := hash_spill_init input_bits input_groups hashentrysize
    work_mem blcksz with hspill
  have hsum : input_bits + spill.partition_bits ≤ 32 := by
    rw [hspill]
    simp only [hash_spill_init]
    split
    · omega
    · omega
  refine ⟨hsum, rfl, ?_⟩
  by_cases hpb : spill.partition_bits = 0
  · rw [spill_partition, if_pos hpb, hpb]
    simp only [pow_zero]
    omega
  · rw [spill_partition, if_neg hpb]
    exact shift_window_eq input_bits spill.partition_bits hash hsum hh

theorem spill_partition_window_witness :
    0 + (hash_spill_init 0 1000 64 4096 8192).partition_bits ≤ 32 ∧
    spill_partition (hash_spill_init 0 1000 64 4096 8192) 0 3000000000 =
      3000000000 / 2 ^ (32 - 0 - (hash_spill_init 0 1000 64 4096
        8192).partition_bits) %
        2 ^ (hash_spill_init 0 1000 64 4096 8192).partition_bits :=
  ⟨(spill_partition_window 0 1000 64 4096 8192 3000000000 (by decide)
      (by decide)).1,
   (spill_partition_window 0 1000 64 4096 8192 3000000000 (by decide)
      (by decide)).2.2⟩

/-- C4 counterexample: with `work_mem = 64` kB and `BLCKSZ = 8192` the
partition cap `floor(work_mem * 0.25 / BLCKSZ)` is 2, yet the chosen
partition count is 4: the minimum-partitions clamp is applied after the
cap, and the rounding to a power of two happens after all clamps, so the
result is NOT "at most the partition cap" as claimed. -/
theorem spill_partition_count_counterexample :
    (hash_spill_init 0 100 100 64 8192).n_partitions = 4 ∧
    64 * 1024 / 4 / 8192 = 2 ∧
    ¬ (hash_spill_init 0 100 100 64 8192).n_partitions ≤
      64 * 1024 / 4 / 8192 := by
  decide

/-- C4 amended: the estimate `1 + floor(1.5 * input_groups * entry_size /
work_mem)` is clamped first to the partition cap
`floor(work_mem * 0.25 / BLCKSZ)`, then to at least `MIN_PARTITIONS = 4`
and at most `MAX_PARTITIONS = 256`, and only then rounded up to a power of
two; the resulting count (before 32-bit truncation, i.e. at
`input_bits = 0`) is always a power of two between 4 and 256, but can
exceed the partition cap when the cap is below 4 or not a power of two. -/
theorem spill_partition_count_amended (work_mem blcksz input_groups
    hashentrysize : Nat) :
    hash_choose_num_spill_partitions work_mem blcksz input_groups
        hashentrysize =
      min (max (min (1 + 3 * input_groups * hashentrysize / 2 /
        (work_mem * 1024)) (work_mem * 1024 / 4 / blcksz)) 4) 256 ∧
    (hash_spill_init 0 input_groups hashentrysize work_mem
        blcksz).n_partitions =
      2 ^ my_log2 (hash_choose_num_spill_partitions work_mem blcksz
        input_groups hashentrysize) ∧
    4 ≤ (hash_spill_init 0 input_groups hashentrysize work_mem
      blcksz).n_partitions ∧
    (hash_spill_init 0 input_groups hashentrysize work_mem
      blcksz).n_partitions ≤ 256 := by
  have hclamp : hash_choose_num_spill_partitions work_mem blcksz
      input_groups hashentrysize =
      min (max (min (1 + 3 * input_groups * hashentrysize / 2 /
        (work_mem * 1024)) (work_mem * 1024 / 4 / blcksz)) 4) 256 := by
    simp only [hash_choose_num_spill_partitions, HASH_MIN_PARTITIONS,
      HASH_MAX_PARTITIONS, Nat.min_def, Nat.max_def]
    split_ifs <;> omega
  set np := hash_choose_num_spill_partitions work_mem blcksz input_groups
    hashentrysize with hnp
  have hnp4 : 4 ≤ np := by
    rw [hclamp]
    omega
  have hnp256 : np ≤ 256 := by
    rw [hclamp]
    omega
  have hlog_lo : 2 ≤ my_log2 np := by
    have h := my_log2_le_of_le hnp4
    have h4 : my_log2 4 = 2 := by decide
    omega
  have hlog_hi : my_log2 np ≤ 8 := by
    have h := my_log2_le_of_le hnp256
    have h256 : my_log2 256 = 8 := by decide
    omega
  have hif : ¬ 32 ≤ my_log2 np + 0 := by omega
  have hpb : (hash_spill_init 0 input_groups hashentrysize work_mem
      blcksz).partition_bits = my_log2 np := by
    simp only [hash_spill_init, ← hnp]
    rw [if_neg hif]
  have hnpart : (hash_spill_init 0 input_groups hashentrysize work_mem
      blcksz).n_partitions = 2 ^ my_log2 np := by
    simp only [hash_spill_init, ← hnp]
    rw [if_neg hif]
  refine ⟨hclamp, hnpart, ?_, ?_⟩
  · rw [hnpart]
    calc (4 : Nat) = 2 ^ 2 := by norm_num
    _ ≤ 2 ^ my_log2 np := Nat.pow_le_pow_right (by norm_num) hlog_lo
  · rw [hnpart]
    calc (2 : Nat) ^ my_log2 np ≤ 2 ^ 8 :=
        Nat.pow_le_pow_right (by norm_num) hlog_hi
    _ = 256 := by norm_num

/-! ### Hash memory limits chosen at initialization -/

/-- The value of `SIZE_MAX` on the 64-bit builds the code targets. -/
def SIZE_MAX : Nat := 2 ^ 64 - 1

/-- The value of `LONG_MAX` on the 64-bit builds the code targets. -/
def LONG_MAX : Nat := 2 ^ 63 - 1

/-- Embedding of `HASH_PARTITION_MEM` (nodeAgg.c:282): `HASH_MIN_PARTITIONS * BLCKSZ`,
the work_mem reservation for spill-partition buffering. -/
def HASH_PARTITION_MEM (blcksz : Nat) : Nat := HASH_MIN_PARTITIONS * blcksz

structure HashLimits where
  mem_limit : Nat
  ngroups_limit : Nat
  deriving Repr, DecidableEq

/-- Embedding of `ExecInitAgg` (nodeAgg.c:3387-3409): initialization of
`hash_mem_limit` and `hash_ngroups_limit` from the `hashagg_mem_overflow`
configuration flag, `work_mem` (kilobytes) and the estimated entry
size. -/
def init_hash_limits (hashagg_mem_overflow : Bool)
    (work_mem blcksz hashentrysize : Nat) : HashLimits :=
  let mem_limit :=
    if hashagg_mem_overflow then SIZE_MAX
    else if HASH_PARTITION_MEM blcksz * 2 < work_mem * 1024 then
      work_mem * 1024 - HASH_PARTITION_MEM blcksz
    else work_mem * 1024
  let ngroups_limit :=
    if hashagg_mem_overflow then LONG_MAX
    else if hashentrysize < mem_limit then mem_limit / hashentrysize
    else 1
  { mem_limit := mem_limit, ngroups_limit := ngroups_limit }

/-- C5 counterexample: with enforcement enabled, `work_mem = 1024` kB and
`BLCKSZ = 8192`, the byte limit is `work_mem - HASH_PARTITION_MEM`, which
is strictly below `work_mem` (bytes) -- so the claim's "never below
work_mem" conjunct is false. -/
theorem hash_limits_counterexample :
    (init_hash_limits false 1024 8192 100).mem_limit =
      1024 * 1024 - HASH_PARTITION_MEM 8192 ∧
    ¬ 1024 * 1024 ≤ (init_hash_limits false 1024 8192 100).mem_limit := by
  decide

/-- C5 amended: with enforcement enabled, the byte limit equals
`work_mem - HASH_PARTITION_MEM` when `work_mem` exceeds twice the
reservation and `work_mem` itself otherwise (so it always exceeds half of
`work_mem`, but is below `work_mem` whenever the reservation is
subtracted); the entry limit is `byte_limit / estimated_entry_size` when
the byte limit exceeds the entry size, and 1 otherwise, so at least one
entry is always allowed; when `hashagg_mem_overflow` is set both limits
are the unbounded `SIZE_MAX` / `LONG_MAX`. -/
theorem hash_limits_amended (overflow : Bool)
    (work_mem blcksz hashentrysize : Nat) (he : 0 < hashentrysize) :
    (overflow = true →
      init_hash_limits overflow work_mem blcksz hashentrysize =
        { mem_limit := SIZE_MAX, ngroups_limit := LONG_MAX }) ∧
    (overflow = false →
      (HASH_PARTITION_MEM blcksz * 2 < work_mem * 1024 →
        (init_hash_limits overflow work_mem blcksz
          hashentrysize).mem_limit =
          work_mem * 1024 - HASH_PARTITION_MEM blcksz) ∧
      (¬ HASH_PARTITION_MEM blcksz * 2 < work_mem * 1024 →
        (init_hash_limits overflow work_mem blcksz
          hashentrysize).mem_limit = work_mem * 1024) ∧
      work_mem * 1024 ≤ 2 * (init_hash_limits overflow work_mem blcksz
        hashentrysize).mem_limit ∧
      (hashentrysize < (init_hash_limits overflow work_mem blcksz
          hashentrysize).mem_limit →
        (init_hash_limits overflow work_mem blcksz
          hashentrysize).ngroups_limit =
          (init_hash_limits overflow work_mem blcksz
            hashentrysize).mem_limit / hashentrysize) ∧
      1 ≤ (init_hash_limits overflow work_mem blcksz
        hashentrysize).ngroups_limit) := by
  constructor
  · intro hov
    subst hov
    simp [init_hash_limits]
  · intro hov
    subst hov
    by_cases hcond : HASH_PARTITION_MEM blcksz * 2 < work_mem * 1024
    · have hmem : (init_hash_limits false work_mem blcksz
          hashentrysize).mem_limit =
          work_mem * 1024 - HASH_PARTITION_MEM blcksz := by
        simp [init_hash_limits, hcond]
      refine ⟨fun _ => hmem, fun h => absurd hcond h, ?_, ?_, ?_⟩
      · rw [hmem]
        omega
      · intro hlt
        rw [hmem] at hlt
        simp [init_hash_limits, hcond, hlt]
      · by_cases hlt : hashentrysize <
            work_mem * 1024 - HASH_PARTITION_MEM blcksz
        · have : 1 ≤ (work_mem * 1024 - HASH_PARTITION_MEM blcksz) /
              hashentrysize :=
            (Nat.one_le_div_iff he).mpr (le_of_lt hlt)
          simpa [init_hash_limits, hcond, hlt] using this
        · simp [init_hash_limits, hcond, hlt]
    · have hmem : (init_hash_limits false work_mem blcksz
          hashentrysize).mem_limit = work_mem * 1024 := by
        simp [init_hash_limits, hcond]
      refine ⟨fun h => absurd h hcond, fun _ => hmem, ?_, ?_, ?_⟩
      · rw [hmem]
        omega
      · intro hlt
        rw [hmem] at hlt
        simp [init_hash_limits, hcond, hlt]
      · by_cases hlt : hashentrysize < work_mem * 1024
        · have : 1 ≤ work_mem * 1024 / hashentrysize :=
            (Nat.one_le_div_iff he).mpr (le_of_lt hlt)
          simpa [init_hash_limits, hcond, hlt] using this
        · simp [init_hash_limits, hcond, hlt]

theorem hash_limits_amended_witness :
    (init_hash_limits true 1024 8192 100 =
      { mem_limit := SIZE_MAX, ngroups_limit := LONG_MAX }) ∧
    1 ≤ (init_hash_limits false 1024 8192 100).ngroups_limit :=
  ⟨(hash_limits_amended true 1024 8192 100 (by decide)).1 rfl,
   ((hash_limits_amended false 1024 8192 100 (by decide)).2 rfl).2.2.2.2⟩

/-! ### Spill tape write format and read-back -/

/-- Four-byte little-endian block of a `uint32` value, as
`LogicalTapeWrite(..., &value, sizeof(uint32))` lays it out. -/
def u32bytes (n : Nat) : List Nat :=
  [n % 256, n / 256 % 256, n / 65536 % 256, n / 16777216 % 256]

/-- Value of the first four bytes of a little-endian block. -/
def u32val : List Nat → Nat
  | b0 :: b1 :: b2 :: b3 :: _ => b0 + 256 * b1 + 65536 * b2 + 16777216 * b3
  | _ => 0

theorem u32bytes_length (n : Nat) : (u32bytes n).length = 4 := rfl

theorem u32val_u32bytes (n : Nat) (h : n < 2 ^ 32) :
    u32val (u32bytes n) = n := by
  simp only [u32bytes, u32val]
  omega

/-- A `MinimalTuple` as it sits in memory: its leading `uint32` field is
`t_len`, the total tuple length including that length field itself, so the
bytes after the length field are `body` and `t_len = 4 + body.length`. -/
structure MinTuple where
  body : List Nat
  deriving Repr, DecidableEq

def MinTuple.t_len (t : MinTuple) : Nat := 4 + t.body.length

/-- Embedding of `hash_spill_tuple` (nodeAgg.c:2747-2784), tape-write part: write the
u32 hash value, then the `t_len` bytes of the minimal tuple (which start
with the `t_len` field itself).  A logical tape is an append-only byte
stream.  Returns the tape and `total_written`. -/
def hash_spill_tuple (tape : List Nat) (hash : Nat) (tuple : MinTuple) :
    List Nat × Nat :=
  let tape1 := tape ++ u32bytes (hash % 2 ^ 32)
  let tape2 := tape1 ++ (u32bytes tuple.t_len ++ tuple.body)
  (tape2, 4 + tuple.t_len)

inductive ReadResult where
  | eof : ReadResult
  | err : ReadResult
  | ok : Nat → MinTuple → Nat → ReadResult
  deriving Repr, DecidableEq

/-- Embedding of `hash_read_spilled` (nodeAgg.c:2790-2824): read 4 bytes of hash (zero
bytes available means end of tape; a short read is an I/O error), then the
4-byte `t_len`, then the remaining `t_len - 4` bytes of the tuple.
Returns the hash, the reconstructed tuple and the next read position. -/
def hash_read_spilled (tape : List Nat) (pos : Nat) : ReadResult :=
  let hbytes := (tape.drop pos).take 4
  if hbytes.length = 0 then ReadResult.eof
  else if hbytes.length ≠ 4 then ReadResult.err
  else
    let lbytes := (tape.drop (pos + 4)).take 4
    if lbytes.length ≠ 4 then ReadResult.err
    else
      let tlen := u32val lbytes
      let dbytes := (tape.drop (pos + 8)).take (tlen - 4)
      if dbytes.length ≠ tlen - 4 then ReadResult.err
      else ReadResult.ok (u32val hbytes) ⟨dbytes⟩ (pos + 8 + (tlen - 4))

/-- C6: the on-tape format is the u32 hash followed by the minimal tuple
whose leading u32 length field counts the length field itself
(`t_len = 4 + body.length` bytes in all), and `hash_read_spilled` at the
position where `hash_spill_tuple` started writing returns exactly the
written hash and tuple (whatever was on the tape before or is appended
after), leaving the position just past the written bytes. -/
theorem spill_tape_roundtrip (tape rest : List Nat) (hash : Nat)
    (tuple : MinTuple) (hh : hash < 2 ^ 32) (ht : tuple.t_len < 2 ^ 32) :
    (hash_spill_tuple tape hash tuple).1 =
      tape ++ (u32bytes hash ++ (u32bytes (4 + tuple.body.length) ++
        tuple.body)) ∧
    (hash_spill_tuple tape hash tuple).2 = 4 + tuple.t_len ∧
    hash_read_spilled ((hash_spill_tuple tape hash tuple).1 ++ rest)
        tape.length =
      ReadResult.ok hash tuple (tape.length + 4 + tuple.t_len) := by
  have hmod : hash % 4294967296 = hash := by omega
  have hmod2 : hash % 2 ^ 32 = hash := Nat.mod_eq_of_lt hh
  refine ⟨by simp [hash_spill_tuple, hmod, MinTuple.t_len], rfl, ?_⟩
  have e0 : (hash_spill_tuple tape hash tuple).1 ++ rest =
      tape ++ (u32bytes hash ++ (u32bytes tuple.t_len ++
        (tuple.body ++ rest))) := by
    simp [hash_spill_tuple, hmod]
  have ed0 : ((hash_spill_tuple tape hash tuple).1 ++ rest).drop
      tape.length =
      u32bytes hash ++ (u32bytes tuple.t_len ++ (tuple.body ++ rest)) := by
    rw [e0, List.drop_left]
  have ed4 : ((hash_spill_tuple tape hash tuple).1 ++ rest).drop
      (tape.length + 4) =
      u32bytes tuple.t_len ++ (tuple.body ++ rest) := by
    rw [e0, show tape ++ (u32bytes hash ++ (u32bytes tuple.t_len ++
        (tuple.body ++ rest))) =
      (tape ++ u32bytes hash) ++ (u32bytes tuple.t_len ++
        (tuple.body ++ rest)) by simp]
    exact List.drop_left' (by simp [u32bytes_length])
  have ed8 : ((hash_spill_tuple tape hash tuple).1 ++ rest).drop
      (tape.length + 8) = tuple.body ++ rest := by
    rw [e0, show tape ++ (u32bytes hash ++ (u32bytes tuple.t_len ++
        (tuple.body ++ rest))) =
      ((tape ++ u32bytes hash) ++ u32bytes tuple.t_len) ++
        (tuple.body ++ rest) by simp]
    exact List.drop_left' (by simp [u32bytes_length])
  have et0 : (u32bytes hash ++ (u32bytes tuple.t_len ++
      (tuple.body ++ rest))).take 4 = u32bytes hash := by
    rw [show (4 : Nat) = (u32bytes hash).length from rfl, List.take_left]
  have et4 : (u32bytes tuple.t_len ++ (tuple.body ++ rest)).take 4 =
      u32bytes tuple.t_len := by
    rw [show (4 : Nat) = (u32bytes tuple.t_len).length from rfl,
      List.take_left]
  have et8 : (tuple.body ++ rest).take (tuple.t_len - 4) = tuple.body := by
    have h1 : tuple.t_len - 4 = tuple.body.length := by
      simp [MinTuple.t_len]
    rw [h1, List.take_left]
  rw [hash_read_spilled]
  simp only [ed0, ed4, ed8, et0, et4]
  rw [u32val_u32bytes tuple.t_len ht, et8,
    u32val_u32bytes hash hh]
  simp only [u32bytes_length, ReadResult.ok.injEq]
  norm_num [MinTuple.t_len]
  omega

theorem spill_tape_roundtrip_witness :
    hash_read_spilled
        ((hash_spill_tuple [9] 77 ⟨[1, 2, 3]⟩).1 ++ [5, 5]) 1 =
      ReadResult.ok 77 ⟨[1, 2, 3]⟩ (1 + 4 + MinTuple.t_len ⟨[1, 2, 3]⟩) := by
  have h := (spill_tape_roundtrip [9] [5, 5] 77 ⟨[1, 2, 3]⟩ (by decide)
    (by decide)).2.2
  simpa using h

/-! ### Single-column DISTINCT processing after the sort -/

/-- Loop state of `process_ordered_aggregate_single`: the retained
previous value (`oldVal`/`oldIsNull`/`oldAbbrevVal`/`haveOldVal`), the
group's transition state, and instrumentation counting calls to
`advance_transition_function` and to the full equality comparator
`equalfnOne`. -/
structure OrderedSingleAcc where
  oldVal : Nat
  oldIsNull : Bool
  oldAbbrev : Nat
  haveOldVal : Bool
  group : PerGroupState
  advances : Nat
  eqCalls : Nat

/-- One iteration of the `tuplesort_getdatum` loop of
`process_ordered_aggregate_single` (nodeAgg.c:829-869).  `abbrevOf` gives
the abbreviated key the sort reports for a datum; `equalfn` is the full
equality comparator.  In DISTINCT mode a value equal to the prior one is
skipped; two nulls match via the null checks alone, and the comparator is
reached only when both values are non-null and the abbreviated keys
match. -/
def process_ordered_single_step (isDistinct : Bool)
    (equalfn : Nat → Nat → Bool) (abbrevOf : Nat → Nat)
    (pertrans : PerTrans) (acc : OrderedSingleAcc) (inp : Nat × Bool) :
    OrderedSingleAcc :=
  let newAbbrev := abbrevOf inp.1
  let cmpReached := isDistinct && acc.haveOldVal && !acc.oldIsNull &&
    !inp.2 && (acc.oldAbbrev == newAbbrev)
  let skip := isDistinct && acc.haveOldVal &&
    ((acc.oldIsNull && inp.2) ||
      (cmpReached && equalfn acc.oldVal inp.1))
  if skip then
    { acc with eqCalls := acc.eqCalls + (if cmpReached then 1 else 0) }
  else
    let r := advance_transition_function pertrans acc.group [inp]
    { oldVal := inp.1
      oldIsNull := inp.2
      oldAbbrev := newAbbrev
      haveOldVal := true
      group := r.1
      advances := acc.advances + 1
      eqCalls := acc.eqCalls + (if cmpReached then 1 else 0) }

/-- Embedding of `process_ordered_aggregate_single` (nodeAgg.c:798-876): after the sort
completes, scan the sorted `(value, isnull)` stream in order starting from
`oldVal = 0, oldIsNull = true, haveOldVal = false`. -/
def process_ordered_aggregate_single (isDistinct : Bool)
    (equalfn : Nat → Nat → Bool) (abbrevOf : Nat → Nat)
    (pertrans : PerTrans) (group0 : PerGroupState)
    (inputs : List (Nat × Bool)) : OrderedSingleAcc :=
  inputs.foldl (process_ordered_single_step isDistinct equalfn abbrevOf
    pertrans)
    { oldVal := 0, oldIsNull := true, oldAbbrev := 0, haveOldVal := false
      group := group0, advances := 0, eqCalls := 0 }

theorem null_run_fixpoint (equalfn : Nat → Nat → Bool)
    (abbrevOf : Nat → Nat) (pertrans : PerTrans) :
    ∀ (ds : List Nat) (acc : OrderedSingleAcc),
      acc.haveOldVal = true → acc.oldIsNull = true →
      (ds.map (fun d => (d, true))).foldl
        (process_ordered_single_step true equalfn abbrevOf pertrans) acc
        = acc
  | [], _, _, _ => rfl
  | d :: rest, acc, h1, h2 => by
      rw [List.map_cons, List.foldl_cons]
      have hstep : process_ordered_single_step true equalfn abbrevOf
          pertrans acc (d, true) = acc := by
        obtain ⟨ov, onull, oa, ho, gg, adv, ec⟩ := acc
        simp_all [process_ordered_single_step]
      rw [hstep]
      exact null_run_fixpoint equalfn abbrevOf pertrans rest acc h1 h2

/-- C10: in the single-column DISTINCT path a run of consecutive null
inputs advances the transition function at most once -- exactly once when
the run starts the scan, and not at all when the previous retained value
is already null -- and the equality comparator is never called on the
nulls: the null checks alone classify them as duplicates. -/
theorem distinct_single_null_run (equalfn : Nat → Nat → Bool)
    (abbrevOf : Nat → Nat) (pertrans : PerTrans) (g : PerGroupState)
    (ds : List Nat) (hne : ds ≠ []) :
    (process_ordered_aggregate_single true equalfn abbrevOf pertrans g
      (ds.map (fun d => (d, true)))).advances = 1 ∧
    (process_ordered_aggregate_single true equalfn abbrevOf pertrans g
      (ds.map (fun d => (d, true)))).eqCalls = 0 ∧
    (∀ acc : OrderedSingleAcc, acc.haveOldVal = true →
      acc.oldIsNull = true →
      (ds.map (fun d => (d, true))).foldl
        (process_ordered_single_step true equalfn abbrevOf pertrans) acc
        = acc) := by
  refine ⟨?_, ?_, fun acc h1 h2 =>
    null_run_fixpoint equalfn abbrevOf pertrans ds acc h1 h2⟩
  all_goals
    obtain ⟨d, rest, rfl⟩ := List.exists_cons_of_ne_nil hne
    rw [process_ordered_aggregate_single, List.map_cons, List.foldl_cons]
    rw [show process_ordered_single_step true equalfn abbrevOf pertrans
      { oldVal := 0, oldIsNull := true, oldAbbrev := 0
        haveOldVal := false, group := g, advances := 0, eqCalls := 0 }
      (d, true) =
      { oldVal := d, oldIsNull := true, oldAbbrev := abbrevOf d
        haveOldVal := true
        group := (advance_transition_function pertrans g [(d, true)]).1
        advances := 1, eqCalls := 0 } by
        simp [process_ordered_single_step]]
    rw [null_run_fixpoint equalfn abbrevOf pertrans rest _ rfl rfl]

theorem distinct_single_null_run_witness :
    (process_ordered_aggregate_single true (fun a b => a == b)
      (fun d => d) strictSumPT (initialize_aggregate strictSumPT)
      ([4, 9].map (fun d => (d, true)))).advances = 1 ∧
    (process_ordered_aggregate_single true (fun a b => a == b)
      (fun d => d) strictSumPT (initialize_aggregate strictSumPT)
      ([4, 9].map (fun d => (d, true)))).eqCalls = 0 :=
  ⟨(distinct_single_null_run (fun a b => a == b) (fun d => d) strictSumPT
      (initialize_aggregate strictSumPT) [4, 9] (by decide)).1,
   (distinct_single_null_run (fun a b => a == b) (fun d => d) strictSumPT
      (initialize_aggregate strictSumPT) [4, 9] (by decide)).2.1⟩

/-! ### Aggregate and transition-state deduplication at initialization -/

/-- The catalog row (`Form_pg_aggregate`) fields `ExecInitAgg` reads while
setting up a PerAgg/PerTrans.  OIDs are `Nat`, 0 standing for
`InvalidOid`; `aggfinalmodify_read_write` is whether `aggfinalmodify =
AGGMODIFY_READ_WRITE`; `agginitval = none` is a null initial value. -/
structure AggForm where
  aggtransfn : Nat
  aggcombinefn : Nat
  aggfinalfn : Nat
  aggserialfn : Nat
  aggdeserialfn : Nat
  aggfinalmodify_read_write : Bool
  agginitval : Option Nat
  deriving Repr, DecidableEq

/-- An `Aggref` parse node, restricted to the fields compared by
`find_compatible_peragg` and used to build per-agg data.  Parse subtrees
(`args`, `aggorder`, `aggdistinct`, `aggfilter`, `aggdirectargs`) are
abstracted to codes compared the way `equal()` compares the trees;
`hasVolatile` is the result of `contain_volatile_functions`.  The catalog
row for `aggfnoid` is carried inline (`SearchSysCache1` is keyed by
`aggfnoid`, so equal OIDs carry equal rows). -/
structure Aggref where
  inputcollid : Nat
  aggtranstype : Nat
  aggstar : Bool
  aggvariadic : Bool
  aggkind : Nat
  args : Nat
  aggorder : Nat
  aggdistinct : Nat
  aggfilter : Nat
  aggfnoid : Nat
  aggtype : Nat
  aggcollid : Nat
  aggdirectargs : Nat
  hasVolatile : Bool
  form : AggForm
  deriving Repr, DecidableEq

/-- The `aggsplit` mode bits `ExecInitAgg` consults. -/
structure AggSplit where
  combine : Bool
  skipfinal : Bool
  serialize : Bool
  deserialize : Bool
  deriving Repr, DecidableEq

/-- Embedding of `AggStatePerAggData`, restricted to the dedup-relevant fields. -/
structure PerAggData where
  aggref : Aggref
  transno : Nat
  shareable : Bool
  finalfn_oid : Nat
  deriving Repr, DecidableEq

/-- Embedding of `AggStatePerTransData`, restricted to the fields
`find_compatible_pertrans` compares plus the `aggshared` mark. -/
structure PerTransData where
  transfn_oid : Nat
  aggtranstype : Nat
  serialfn_oid : Nat
  deserialfn_oid : Nat
  initValue : Option Nat
  aggshared : Bool
  deriving Repr, DecidableEq

/-- Scan loop of `find_compatible_peragg` (nodeAgg.c:4193-4234):
`aggno` is the index of the entry at the head of the remaining list,
`acc` the collected shareable same-input transnos. -/
def find_compatible_peragg_go (newagg : Aggref) :
    List PerAggData → Nat → List Nat → Option Nat × List Nat
  | [], _, acc => (none, acc)
  | peragg :: rest, aggno, acc =>
      if newagg.inputcollid = peragg.aggref.inputcollid ∧
          newagg.aggtranstype = peragg.aggref.aggtranstype ∧
          newagg.aggstar = peragg.aggref.aggstar ∧
          newagg.aggvariadic = peragg.aggref.aggvariadic ∧
          newagg.aggkind = peragg.aggref.aggkind ∧
          newagg.args = peragg.aggref.args ∧
          newagg.aggorder = peragg.aggref.aggorder ∧
          newagg.aggdistinct = peragg.aggref.aggdistinct ∧
          newagg.aggfilter = peragg.aggref.aggfilter then
        if newagg.aggfnoid = peragg.aggref.aggfnoid ∧
            newagg.aggtype = peragg.aggref.aggtype ∧
            newagg.aggcollid = peragg.aggref.aggcollid ∧
            newagg.aggdirectargs = peragg.aggref.aggdirectargs then
          (some aggno, [])
        else
          find_compatible_peragg_go newagg rest (aggno + 1)
            (if peragg.shareable then acc ++ [peragg.transno] else acc)
      else
        find_compatible_peragg_go newagg rest (aggno + 1) acc

/-- Embedding of `find_compatible_peragg` (nodeAgg.c:4169-4237): no reuse at all when
the aggregate contains volatile functions; an identical Aggref yields its
aggno with an empty candidate list; otherwise the shareable same-input
transnos are collected. -/
def find_compatible_peragg (newagg : Aggref)
    (peraggs : List PerAggData) : Option Nat × List Nat :=
  if newagg.hasVolatile then (none, [])
  else find_compatible_peragg_go newagg peraggs 0 []

/-- Field comparison of `find_compatible_pertrans` (nodeAgg.c:4269-4293):
transfn OID, transtype, serialization OIDs, and the initial condition
(both null, or both non-null and equal). -/
def pertrans_fields_match (pt : PerTransData)
    (aggtransfn aggtranstype aggserialfn aggdeserialfn : Nat)
    (initValue : Option Nat) : Bool :=
  aggtransfn == pt.transfn_oid && aggtranstype == pt.aggtranstype &&
  aggserialfn == pt.serialfn_oid && aggdeserialfn == pt.deserialfn_oid &&
  (match initValue, pt.initValue with
   | none, none => true
   | some a, some b => a == b
   | _, _ => false)

/-- Embedding of `find_compatible_pertrans` (nodeAgg.c:4247-4296): give up when the
aggregate cannot share its transition state; otherwise return the first
candidate transno whose per-trans fields match. -/
def find_compatible_pertrans (pertransList : List PerTransData)
    (shareable : Bool)
    (aggtransfn aggtranstype aggserialfn aggdeserialfn : Nat)
    (initValue : Option Nat) (transnos : List Nat) : Option Nat :=
  if !shareable then none
  else transnos.find? (fun transno =>
    match pertransList.get? transno with
    | some pt => pertrans_fields_match pt aggtransfn aggtranstype
        aggserialfn aggdeserialfn initValue
    | none => false)

def INTERNALOID : Nat := 2281

/-- Embedding of `ExecInitAgg` (nodeAgg.c:3546-3555): combining nodes use the combine
function as transition function. -/
def derive_transfn_oid (split : AggSplit) (ref : Aggref) : Nat :=
  if split.combine then ref.form.aggcombinefn else ref.form.aggtransfn

/-- Embedding of `ExecInitAgg` (nodeAgg.c:3557-3561): the final function is only
installed when this node finalizes. -/
def derive_finalfn_oid (split : AggSplit) (ref : Aggref) : Nat :=
  if split.skipfinal then 0 else ref.form.aggfinalfn

/-- Embedding of `ExecInitAgg` (nodeAgg.c:3563-3570): transition states may be shared
unless the executed final function is marked read-write. -/
def derive_shareable (split : AggSplit) (ref : Aggref) : Bool :=
  !ref.form.aggfinalmodify_read_write || derive_finalfn_oid split ref == 0

/-- Embedding of `ExecInitAgg` (nodeAgg.c:3572-3606): serialization functions are
installed only for INTERNAL transtype in the respective split modes. -/
def derive_serialfn_oid (split : AggSplit) (ref : Aggref) : Nat :=
  if ref.aggtranstype = INTERNALOID ∧ split.serialize then
    ref.form.aggserialfn
  else 0

def derive_deserialfn_oid (split : AggSplit) (ref : Aggref) : Nat :=
  if ref.aggtranstype = INTERNALOID ∧ split.deserialize then
    ref.form.aggdeserialfn
  else 0

/-- Embedding of `build_pertrans_for_aggref`, restricted to the dedup-relevant
fields; a fresh per-trans is not shared. -/
def build_pertrans_for_aggref (transfn_oid aggtranstype serialfn_oid
    deserialfn_oid : Nat) (initValue : Option Nat) : PerTransData :=
  { transfn_oid := transfn_oid
    aggtranstype := aggtranstype
    serialfn_oid := serialfn_oid
    deserialfn_oid := deserialfn_oid
    initValue := initValue
    aggshared := false }

/-- Mark `pertrans->aggshared = true` on sharing (nodeAgg.c:3730-3732). -/
def set_aggshared (l : List PerTransData) (tn : Nat) : List PerTransData :=
  l.mapIdx (fun i pt => if i = tn then { pt with aggshared := true }
    else pt)

/-- The `ExecInitAgg` state the dedup loop threads: the PerAgg and
PerTrans arrays built so far. -/
structure InitState where
  peraggs : List PerAggData
  pertrans : List PerTransData
  deriving Repr, DecidableEq

/-- One iteration of the `ExecInitAgg` dedup loop (nodeAgg.c:3473-3745)
for one aggregate reference: reuse an identical PerAgg outright, else
build a PerAgg and either bind it to a compatible existing PerTrans
(marking it shared) or append a fresh PerTrans. -/
def init_one_aggref (split : AggSplit) (st : InitState) (ref : Aggref) :
    InitState :=
  let r := find_compatible_peragg ref st.peraggs
  match r.1 with
  | some _ => st
  | none =>
      let transfn_oid := derive_transfn_oid split ref
      let finalfn_oid := derive_finalfn_oid split ref
      let shareable := derive_shareable split ref
      let serialfn_oid := derive_serialfn_oid split ref
      let deserialfn_oid := derive_deserialfn_oid split ref
      let initValue := ref.form.agginitval
      match find_compatible_pertrans st.pertrans shareable transfn_oid
          ref.aggtranstype serialfn_oid deserialfn_oid initValue r.2 with
      | some tn =>
          { peraggs := st.peraggs ++
              [{ aggref := ref
                 transno := tn
                 shareable := shareable
                 finalfn_oid := finalfn_oid }]
            pertrans := set_aggshared st.pertrans tn }
      | none =>
          { peraggs := st.peraggs ++
              [{ aggref := ref
                 transno := st.pertrans.length
                 shareable := shareable
                 finalfn_oid := finalfn_oid }]
            pertrans := st.pertrans ++ [build_pertrans_for_aggref
              transfn_oid ref.aggtranstype serialfn_oid deserialfn_oid
              initValue] }

/-- The `ExecInitAgg` dedup loop over all aggregate references. -/
def ExecInitAgg_dedup (split : AggSplit) (refs : List Aggref) :
    InitState :=
  refs.foldl (init_one_aggref split) { peraggs := [], pertrans := [] }

theorem peragg_go_candidates (newagg : Aggref) :
    ∀ (l : List PerAggData) (aggno : Nat) (acc : List Nat) (tn : Nat),
      tn ∈ (find_compatible_peragg_go newagg l aggno acc).2 →
      tn ∈ acc ∨ ∃ pa ∈ l, pa.shareable = true ∧ pa.transno = tn
  | [], _, acc, tn => fun h => Or.inl h
  | peragg :: rest, aggno, acc, tn => by
      intro h
      rw [find_compatible_peragg_go] at h
      split at h
      · split at h
        · simp at h
        · rcases peragg_go_candidates newagg rest (aggno + 1) _ tn h with
            hacc | ⟨pa, hpa, hsh, htn⟩
          · by_cases hps : peragg.shareable = true
            · rw [if_pos hps] at hacc
              rcases List.mem_append.mp hacc with h2 | h2
              · exact Or.inl h2
              · refine Or.inr ⟨peragg, List.mem_cons_self _ _, hps, ?_⟩
                have h3 : tn = peragg.transno := by simpa using h2
                exact h3.symm
            · rw [if_neg hps] at hacc
              exact Or.inl hacc
          · exact Or.inr ⟨pa, List.mem_cons_of_mem _ hpa, hsh, htn⟩
      · rcases peragg_go_candidates newagg rest (aggno + 1) acc tn h with
          hacc | ⟨pa, hpa, hsh, htn⟩
        · exact Or.inl hacc
        · exact Or.inr ⟨pa, List.mem_cons_of_mem _ hpa, hsh, htn⟩

theorem peragg_candidates_shareable (newagg : Aggref)
    (peraggs : List PerAggData) (tn : Nat)
    (h : tn ∈ (find_compatible_peragg newagg peraggs).2) :
    ∃ pa ∈ peraggs, pa.shareable = true ∧ pa.transno = tn := by
  rw [find_compatible_peragg] at h
  split at h
  · simp at h
  · rcases peragg_go_candidates newagg peraggs 0 [] tn h with h2 | h2
    · simp at h2
    · exact h2

theorem pertrans_some_props (pertransList : List PerTransData)
    (shareable : Bool) (f t s d : Nat) (iv : Option Nat)
    (transnos : List Nat) (tn : Nat)
    (h : find_compatible_pertrans pertransList shareable f t s d iv
      transnos = some tn) :
    shareable = true ∧ tn ∈ transnos := by
  rw [find_compatible_pertrans] at h
  split at h
  · exact absurd h (by simp)
  · rename_i hsh
    simp only [Bool.not_eq_true', Bool.not_eq_false] at hsh
    exact ⟨hsh, List.mem_of_find?_eq_some h⟩

theorem set_aggshared_length (l : List PerTransData) (tn : Nat) :
    (set_aggshared l tn).length = l.length := by
  simp [set_aggshared]

theorem get_append_one_left {α : Type} :
    ∀ (l : List α) (x : α) (i : Nat) (h : i < l.length)
      (h2 : i < (l ++ [x]).length),
      (l ++ [x]).get ⟨i, h2⟩ = l.get ⟨i, h⟩
  | _ :: _, _, 0, _, _ => rfl
  | a :: rest, x, i + 1, h, h2 =>
      get_append_one_left rest x i (by simpa using h)
        (by simp at h2 ⊢; omega)

theorem get_append_one_last {α : Type} :
    ∀ (l : List α) (x : α) (h : l.length < (l ++ [x]).length),
      (l ++ [x]).get ⟨l.length, h⟩ = x
  | [], _, _ => rfl
  | _ :: rest, x, _ => get_append_one_last rest x (by simp)

/-- Invariant: each installed PerAgg's transno indexes into the PerTrans
array. -/
def transnoBound (st : InitState) : Prop :=
  ∀ pa ∈ st.peraggs, pa.transno < st.pertrans.length

/-- Invariant: whenever two distinct PerAggs are bound to the same
PerTrans, the aggregates are shareable. -/
def sharedOnlyWhenShareable (st : InitState) : Prop :=
  ∀ (i j : Nat) (hi : i < st.peraggs.length)
    (hj : j < st.peraggs.length), i ≠ j →
    (st.peraggs.get ⟨i, hi⟩).transno =
      (st.peraggs.get ⟨j, hj⟩).transno →
    (st.peraggs.get ⟨i, hi⟩).shareable = true

theorem init_one_preserves (split : AggSplit) (st : InitState)
    (ref : Aggref) (hb : transnoBound st)
    (hs : sharedOnlyWhenShareable st) :
    transnoBound (init_one_aggref split st ref) ∧
    sharedOnlyWhenShareable (init_one_aggref split st ref) := by
  simp only [init_one_aggref]
  split
  · exact ⟨hb, hs⟩
  · split
    · rename_i tn heq
      obtain ⟨hsh_true, htn_mem⟩ :=
        pertrans_some_props _ _ _ _ _ _ _ _ _ heq
      obtain ⟨pa0, hpa0_mem, hpa0_sh, hpa0_tn⟩ :=
        peragg_candidates_shareable ref st.peraggs tn htn_mem
      constructor
      · intro pa hmem
        dsimp only at hmem ⊢
        rw [set_aggshared_length]
        rcases List.mem_append.mp hmem with hold | hnew
        · exact hb pa hold
        · have hpa : pa.transno = tn := by
            have h5 := List.mem_singleton.mp hnew
            rw [h5]
          rw [hpa, ← hpa0_tn]
          exact hb pa0 hpa0_mem
      · intro i j hi hj hne heq2
        dsimp only at hi hj heq2 ⊢
        by_cases hi2 : i < st.peraggs.length
        · by_cases hj2 : j < st.peraggs.length
          · rw [get_append_one_left _ _ _ hi2,
              get_append_one_left _ _ _ hj2] at heq2
            rw [get_append_one_left _ _ _ hi2]
            exact hs i j hi2 hj2 hne heq2
          · have hj3 : j = st.peraggs.length := by
              simp at hj
              omega
            subst hj3
            rw [get_append_one_left _ _ _ hi2, get_append_one_last]
              at heq2
            rw [get_append_one_left _ _ _ hi2]
            dsimp only at heq2
            obtain ⟨⟨k, hk⟩, hkeq⟩ := List.mem_iff_get.mp hpa0_mem
            by_cases hik : i = k
            · subst hik
              rw [hkeq]
              exact hpa0_sh
            · refine hs i k hi2 hk hik ?_
              rw [hkeq, hpa0_tn]
              exact heq2
        · have hi3 : i = st.peraggs.length := by
            simp at hi
            omega
          subst hi3
          rw [get_append_one_last]
          exact hsh_true
    · rename_i heq
      constructor
      · intro pa hmem
        dsimp only at hmem ⊢
        rcases List.mem_append.mp hmem with hold | hnew
        · have := hb pa hold
          simp only [List.length_append, List.length_cons,
            List.length_nil]
          omega
        · have h5 := List.mem_singleton.mp hnew
          rw [h5]
          dsimp only
          simp only [List.length_append, List.length_cons,
            List.length_nil]
          omega
      · intro i j hi hj hne heq2
        dsimp only at hi hj heq2 ⊢
        by_cases hi2 : i < st.peraggs.length
        · by_cases hj2 : j < st.peraggs.length
          · rw [get_append_one_left _ _ _ hi2,
              get_append_one_left _ _ _ hj2] at heq2
            rw [get_append_one_left _ _ _ hi2]
            exact hs i j hi2 hj2 hne heq2
          · have hj3 : j = st.peraggs.length := by
              simp at hj
              omega
            subst hj3
            rw [get_append_one_left _ _ _ hi2, get_append_one_last]
              at heq2
            have hbi := hb _ (List.get_mem st.peraggs i hi2)
            dsimp only at heq2
            omega
        · have hi3 : i = st.peraggs.length := by
            simp at hi
            omega
          subst hi3
          have hj2 : j < st.peraggs.length := by
            simp at hj
            omega
          rw [get_append_one_last, get_append_one_left _ _ _ hj2] at heq2
          have hbj := hb _ (List.get_mem st.peraggs j hj2)
          dsimp only at heq2
          omega

theorem dedup_loop_invariant (split : AggSplit) :
    ∀ (refs : List Aggref) (st : InitState), transnoBound st →
      sharedOnlyWhenShareable st →
      transnoBound (refs.foldl (init_one_aggref split) st) ∧
      sharedOnlyWhenShareable (refs.foldl (init_one_aggref split) st)
  | [], _, hb, hs => ⟨hb, hs⟩
  | r :: rest, st, hb, hs => by
      rw [List.foldl_cons]
      obtain ⟨hb2, hs2⟩ := init_one_preserves split st r hb hs
      exact dedup_loop_invariant split rest _ hb2 hs2

theorem pertrans_isSome_iff (pertransList : List PerTransData)
    (shareable : Bool) (f t s d : Nat) (iv : Option Nat)
    (transnos : List Nat) :
    (find_compatible_pertrans pertransList shareable f t s d iv
      transnos).isSome = true ↔
    (shareable = true ∧ ∃ tn ∈ transnos, ∃ pt,
      pertransList.get? tn = some pt ∧
      pertrans_fields_match pt f t s d iv = true) := by
  rw [find_compatible_pertrans]
  by_cases hsh : shareable = true
  · rw [if_neg (by simp [hsh])]
    rw [List.find?_isSome]
    constructor
    · rintro ⟨tn, htn, hp⟩
      rcases hget : pertransList.get? tn with _ | pt
      · simp only [hget] at hp
        simp at hp
      · simp only [hget] at hp
        exact ⟨hsh, tn, htn, pt, hget, hp⟩
    · rintro ⟨_, tn, htn, pt, hget, hmatch⟩
      refine ⟨tn, htn, ?_⟩
      simp only [hget]
      exact hmatch
  · have hsh2 : shareable = false := by
      cases shareable
      · rfl
      · exact absurd rfl hsh
    rw [hsh2]
    simp

/-- C9: during initialization a transition state is reused for a further
aggregate reference iff sharing is permitted (`shareable`: the executed
final function is absent or not read-write) and some same-input
candidate's transfn OID, transition type, serialize/deserialize OIDs and
the initial value with its null flag all match
(`find_compatible_pertrans` succeeds exactly under those conditions); and
in the state `ExecInitAgg` builds, a PerTrans belonging to a
non-shareable aggregate is never bound to more than one PerAgg -- any two
distinct PerAggs bound to the same transno are shareable. -/
theorem pertrans_sharing_semantics :
    (∀ (pertransList : List PerTransData) (shareable : Bool)
      (f t s d : Nat) (iv : Option Nat) (transnos : List Nat),
      (find_compatible_pertrans pertransList shareable f t s d iv
        transnos).isSome = true ↔
      (shareable = true ∧ ∃ tn ∈ transnos, ∃ pt,
        pertransList.get? tn = some pt ∧
        pertrans_fields_match pt f t s d iv = true)) ∧
    (∀ (split : AggSplit) (refs : List Aggref) (i j : Nat)
      (hi : i < (ExecInitAgg_dedup split refs).peraggs.length)
      (hj : j < (ExecInitAgg_dedup split refs).peraggs.length),
      i ≠ j →
      ((ExecInitAgg_dedup split refs).peraggs.get ⟨i, hi⟩).transno =
        ((ExecInitAgg_dedup split refs).peraggs.get ⟨j, hj⟩).transno →
      ((ExecInitAgg_dedup split refs).peraggs.get ⟨i, hi⟩).shareable =
        true) := by
  constructor
  · exact pertrans_isSome_iff
  · intro split refs
    have h := dedup_loop_invariant split refs
      { peraggs := [], pertrans := [] }
      (by intro pa hpa; simp at hpa)
      (by intro i j hi hj _ _; simp at hi)
    exact h.2

/-- Catalog row of a sum-like aggregate: no final function, shareable. -/
def sumForm : AggForm :=
  { aggtransfn := 200
    aggcombinefn := 0
    aggfinalfn := 0
    aggserialfn := 0
    aggdeserialfn := 0
    aggfinalmodify_read_write := false
    agginitval := some 0 }

/-- A `sum(x)`-style reference. -/
def aggrefSum : Aggref :=
  { inputcollid := 1
    aggtranstype := 10
    aggstar := false
    aggvariadic := false
    aggkind := 0
    args := 5
    aggorder := 0
    aggdistinct := 0
    aggfilter := 0
    aggfnoid := 100
    aggtype := 20
    aggcollid := 0
    aggdirectargs := 0
    hasVolatile := false
    form := sumForm }

/-- An `avg(x)`-style reference: same inputs and transition setup,
different aggregate and final function. -/
def aggrefAvg : Aggref :=
  { aggrefSum with
    aggfnoid := 101
    aggtype := 21
    form := { sumForm with aggfinalfn := 300 } }

def splitSimple : AggSplit :=
  { combine := false
    skipfinal := false
    serialize := false
    deserialize := false }

theorem pertrans_sharing_semantics_witness :
    ((ExecInitAgg_dedup splitSimple [aggrefSum, aggrefAvg]).peraggs.get
      ⟨0, by decide⟩).shareable = true :=
  pertrans_sharing_semantics.2 splitSimple [aggrefSum, aggrefAvg] 0 1
    (by decide) (by decide) (by decide) (by decide)

/-! ### Sorted/plain retrieval: `agg_retrieve_direct`

The retrieval loop is modelled for a single sorted or plain phase
(`current_phase = numphases - 1`, no hashed phase), which is what the
empty-input rule concerns.  The per-set transition states of one grouping
set are collapsed into an abstract type `G`: `initG` is what
`initialize_aggregates` installs for one set and `advanceG` what the
compiled transition expression does to one set's states for one input
tuple; input tuples are abstracted to `Nat`. -/

inductive AggStrategy where
  | plain : AggStrategy
  | sorted : AggStrategy
  deriving Repr, DecidableEq

/-- The phase-constant data `agg_retrieve_direct` consults. `gset_lengths`
is the phase's list of grouping-set sizes, most specific first (empty for
a phase without grouping sets); `numCols` is `node->numCols`; `prefixEq
len a b` is `ExecQual` of the equality expression on the first `len`
grouping columns of tuples `a` and `b`; `qual` is the HAVING predicate
evaluated by `project_aggregates` on the projected group. -/
structure RetrieveConfig (G : Type) where
  strategy : AggStrategy
  gset_lengths : List Nat
  numCols : Nat
  initG : G
  advanceG : G → Nat → G
  prefixEq : Nat → Nat → Nat → Bool
  qual : Nat → G → Bool

/-- The mutable state of `agg_retrieve_direct` between calls: the
remaining child stream, the `input_done`/`agg_done` flags,
`projected_set` (-1 initially), the pending first tuple of the next group
(`grp_firstTuple`), the current group's representative tuple
(`firstSlot`), and one collapsed transition state per grouping set. -/
structure RetrieveState (G : Type) where
  input : List Nat
  input_done : Bool
  agg_done : Bool
  projected_set : Int
  grp_firstTuple : Option Nat
  firstSlot : Option Nat
  pergroups : List G

/-- Embedding of `initialize_aggregates` (nodeAgg.c:601-629): reset the first
`numReset` grouping sets' states. -/
def initialize_sets {G : Type} (cfg : RetrieveConfig G) :
    List G → Nat → List G
  | pgs, 0 => pgs
  | [], _ + 1 => []
  | _ :: rest, numReset + 1 =>
      cfg.initG :: initialize_sets cfg rest numReset

/-- The `while (gset_lengths[projected_set] > 0)` loop of
`agg_retrieve_direct` (nodeAgg.c:2208-2221), which advances
`projected_set` past the non-empty grouping sets; fuelled structurally
(the fuel `lengths.length` always suffices). -/
def skip_nonempty_go (lengths : List Nat) : Nat → Nat → Nat
  | 0, i => i
  | fuel + 1, i =>
      if h : i < lengths.length then
        if 0 < lengths.get ⟨i, h⟩ then
          skip_nonempty_go lengths fuel (i + 1)
        else i
      else i

def skip_nonempty_sets (lengths : List Nat) (i : Nat) : Nat :=
  skip_nonempty_go lengths lengths.length i

/-- The inner per-group tuple loop of `agg_retrieve_direct`
(nodeAgg.c:2259-2315): advance all grouping sets' states on the current
tuple, fetch the next tuple, stop when the input ends or (when grouping)
the new tuple differs from the representative `firstTuple` on all
`numCols` grouping columns.  Returns the advanced states, the remaining
input, the pending `grp_firstTuple`, and whether the input was
exhausted. -/
def process_group {G : Type} (cfg : RetrieveConfig G) (firstTuple : Nat) :
    List G → Nat → List Nat → List G × List Nat × Option Nat × Bool
  | pgs, cur, [] => (pgs.map (fun g => cfg.advanceG g cur), [], none, true)
  | pgs, cur, t :: rest =>
      let pgs2 := pgs.map (fun g => cfg.advanceG g cur)
      if cfg.strategy ≠ AggStrategy.plain ∧
          ¬ cfg.prefixEq cfg.numCols firstTuple t = true then
        (pgs2, rest, some t, false)
      else
        process_group cfg firstTuple pgs2 t rest

/-- Outcome of one iteration of the `while (!agg_done)` loop: a projected
row, a `return NULL`, or a fall-through to the next iteration. -/
inductive StepResult (G : Type) where
  | row : Nat × G → RetrieveState G → StepResult G
  | stop : RetrieveState G → StepResult G
  | again : RetrieveState G → StepResult G

/-- Embedding of `finalize_aggregates` + `project_aggregates` (nodeAgg.c:2329-2347):
project the current grouping set's states; a row failing the HAVING qual
is not returned -- the loop continues. -/
def finalize_project {G : Type} (cfg : RetrieveConfig G)
    (st : RetrieveState G) : StepResult G :=
  let currentSet := st.projected_set.toNat
  let g := st.pergroups.getD currentSet cfg.initG
  if cfg.qual currentSet g then StepResult.row (currentSet, g) st
  else StepResult.again st

/-- Store the group's first tuple into `firstSlot`, initialize the first
`numReset` sets and run the per-group loop, then fall through to
projection (nodeAgg.c:2239-2327). -/
def run_group {G : Type} (cfg : RetrieveConfig G) (numReset : Nat)
    (t : Nat) (st : RetrieveState G) : StepResult G :=
  let pgs0 := initialize_sets cfg st.pergroups numReset
  let r := process_group cfg t pgs0 t st.input
  let exhausted := r.2.2.2
  let hasGroupingSets := cfg.gset_lengths.length ≠ 0
  finalize_project cfg { st with
    pergroups := r.1
    input := r.2.1
    grp_firstTuple := r.2.2.1
    firstSlot := some t
    input_done := st.input_done ∨ (exhausted ∧ hasGroupingSets)
    agg_done := st.agg_done ∨ (exhausted ∧ ¬ hasGroupingSets) }

/-- The new-group half of the loop body (nodeAgg.c:2167-2327): reset
`projected_set` to 0, fetch the first tuple of the new group if none is
pending, handle an exhausted input (project empty grouping sets only, or
the one row of plain aggregation), initialize the first `numReset` sets
and run the per-group loop. -/
def new_group {G : Type} (cfg : RetrieveConfig G) (numReset : Nat)
    (st : RetrieveState G) : StepResult G :=
  match st.grp_firstTuple, st.input with
  | none, [] =>
      if cfg.gset_lengths.length ≠ 0 then
        let k := skip_nonempty_sets cfg.gset_lengths 0
        let st2 := { st with input_done := true
                             projected_set := (k : Int) }
        if max cfg.gset_lengths.length 1 ≤ k then StepResult.again st2
        else
          finalize_project cfg { st2 with
            pergroups := initialize_sets cfg st2.pergroups numReset }
      else
        let st2 := { st with agg_done := true }
        if cfg.strategy ≠ AggStrategy.plain then StepResult.stop st2
        else
          finalize_project cfg { st2 with
            pergroups := initialize_sets cfg st2.pergroups numReset }
  | none, t :: rest =>
      run_group cfg numReset t { st with input := rest }
  | some t, _ =>
      run_group cfg numReset t { st with grp_firstTuple := none }

/-- One iteration of the retrieval loop of `agg_retrieve_direct`
(nodeAgg.c:2052-2348), for a single sorted/plain phase. -/
def agg_retrieve_step {G : Type} (cfg : RetrieveConfig G)
    (st : RetrieveState G) : StepResult G :=
  if st.agg_done then StepResult.stop st
  else
    let n : Int := (max cfg.gset_lengths.length 1 : Nat)
    let numReset : Nat :=
      if 0 ≤ st.projected_set ∧ st.projected_set < n then
        st.projected_set.toNat + 1
      else max cfg.gset_lengths.length 1
    if st.input_done = true ∧ n - 1 ≤ st.projected_set then
      StepResult.stop { st with agg_done := true }
    else
      let nextSetSize : Nat :=
        if 0 ≤ st.projected_set ∧ st.projected_set < n - 1 then
          cfg.gset_lengths.getD (st.projected_set.toNat + 1) 0
        else 0
      if st.input_done = true ∨ (cfg.strategy ≠ AggStrategy.plain ∧
          st.projected_set ≠ -1 ∧ st.projected_set < n - 1 ∧
          0 < nextSetSize ∧
          ¬ cfg.prefixEq nextSetSize (st.firstSlot.getD 0)
            (st.grp_firstTuple.getD 0) = true) then
        finalize_project cfg
          { st with projected_set := st.projected_set + 1 }
      else
        new_group cfg numReset { st with projected_set := 0 }

/-- Embedding of `agg_retrieve_direct` as one `Next()` call: iterate the loop until a
row is returned or the phase is done (fuelled; the fuel bounds the number
of loop iterations, which the claims instantiate sufficiently). -/
def agg_retrieve_direct {G : Type} (cfg : RetrieveConfig G) :
    Nat → RetrieveState G → Option (Nat × G) × RetrieveState G
  | 0, st => (none, st)
  | fuel + 1, st =>
      match agg_retrieve_step cfg st with
      | StepResult.row r st2 => (some r, st2)
      | StepResult.stop st2 => (none, st2)
      | StepResult.again st2 => agg_retrieve_direct cfg fuel st2

/-- Repeated `Next()` calls until end-of-stream, collecting the emitted
rows (the `ExecAgg` dispatcher for the sorted strategies). -/
def drain {G : Type} (cfg : RetrieveConfig G) (fuel : Nat) :
    Nat → RetrieveState G → List (Nat × G)
  | 0, _ => []
  | calls + 1, st =>
      match agg_retrieve_direct cfg fuel st with
      | (none, _) => []
      | (some r, st2) => r :: drain cfg fuel calls st2

/-- The state `ExecInitAgg` leaves for the retrieval loop
(nodeAgg.c:3017-3028): `projected_set = -1`, flags clear, no pending
tuple, one (yet-uninitialized, here `initG`-filled) state array per
grouping set. -/
def init_retrieve_state {G : Type} (cfg : RetrieveConfig G)
    (input : List Nat) : RetrieveState G :=
  { input := input
    input_done := false
    agg_done := false
    projected_set := -1
    grp_firstTuple := none
    firstSlot := none
    pergroups := List.replicate (max cfg.gset_lengths.length 1) cfg.initG }

theorem getD_replicate_of_lt {G : Type} (g d : G) :
    ∀ (n i : Nat), i < n → (List.replicate n g).getD i d = g
  | n + 1, 0, _ => rfl
  | n + 1, i + 1, h => getD_replicate_of_lt g d n i (by omega)

theorem initialize_sets_replicate {G : Type} (cfg : RetrieveConfig G) :
    ∀ (n r : Nat), initialize_sets cfg (List.replicate n cfg.initG) r =
      List.replicate n cfg.initG
  | _, 0 => by simp [initialize_sets]
  | 0, _ + 1 => rfl
  | n + 1, r + 1 => by
      rw [List.replicate_succ]
      rw [show initialize_sets cfg
          (cfg.initG :: List.replicate n cfg.initG) (r + 1) =
          cfg.initG :: initialize_sets cfg (List.replicate n cfg.initG) r
        from rfl]
      rw [initialize_sets_replicate cfg n r]

theorem filter_skip_eq (L : List Nat)
    (hmono : ∀ i j : Nat, i ≤ j → j < L.length →
      L.getD j 0 ≤ L.getD i 0) :
    ∀ (fuel i : Nat), L.length ≤ fuel + i →
      (List.range' i (L.length - i)).filter
        (fun m => L.getD m 0 == 0) =
      List.range' (skip_nonempty_go L fuel i)
        (L.length - skip_nonempty_go L fuel i)
  | 0, i, hfi => by
      have h0 : L.length - i = 0 := by omega
      rw [skip_nonempty_go, h0]
      rfl
  | fuel + 1, i, hfi => by
      rw [skip_nonempty_go]
      by_cases h : i < L.length
      · rw [dif_pos h]
        by_cases hpos : 0 < L.get ⟨i, h⟩
        · rw [if_pos hpos]
          have hlen : L.length - i = (L.length - (i + 1)) + 1 := by omega
          rw [hlen, List.range'_succ, List.filter_cons]
          have hgd : 0 < L.getD i 0 := by
            rw [List.getD_eq_get L 0 h]
            exact hpos
          have hne : (L.getD i 0 == 0) = false := by
            simp only [beq_eq_false_iff_ne, ne_eq]
            omega
          rw [hne]
          simp only [Bool.false_eq_true, if_neg (by simp : ¬False)]
          exact filter_skip_eq L hmono fuel (i + 1) (by omega)
        · rw [if_neg hpos]
          apply List.filter_eq_self.mpr
          intro m hm
          have hmem := List.mem_range'_1.mp hm
          have hzero : L.getD i 0 = 0 := by
            rw [List.getD_eq_get L 0 h]
            omega
          have hle := hmono i m (by omega) (by omega)
          have hmz : L.getD m 0 = 0 := by omega
          show (L.getD m 0 == 0) = true
          rw [hmz]
          rfl
      · rw [dif_neg h]
        have h0 : L.length - i = 0 := by omega
        rw [h0]
        rfl

theorem step_tail_stop {G : Type} (cfg : RetrieveConfig G)
    (inp : List Nat) (gft fs : Option Nat) (pgs : List G) (k : Nat)
    (hk : ((max cfg.gset_lengths.length 1 : Nat) : Int) - 1 ≤ (k : Int)) :
    agg_retrieve_step cfg
      { input := inp, input_done := true, agg_done := false
        projected_set := (k : Int), grp_firstTuple := gft
        firstSlot := fs, pergroups := pgs } =
    StepResult.stop
      { input := inp, input_done := true, agg_done := true
        projected_set := (k : Int), grp_firstTuple := gft
        firstSlot := fs, pergroups := pgs } := by
  rw [agg_retrieve_step]
  dsimp only
  rw [if_neg (by simp), if_pos ⟨rfl, hk⟩]

theorem step_tail_row {G : Type} (cfg : RetrieveConfig G)
    (hq : ∀ s g, cfg.qual s g = true)
    (inp : List Nat) (gft fs : Option Nat) (pgs : List G) (k : Nat)
    (hk : ¬ (((max cfg.gset_lengths.length 1 : Nat) : Int) - 1 ≤
      (k : Int))) :
    agg_retrieve_step cfg
      { input := inp, input_done := true, agg_done := false
        projected_set := (k : Int), grp_firstTuple := gft
        firstSlot := fs, pergroups := pgs } =
    StepResult.row (k + 1, pgs.getD (k + 1) cfg.initG)
      { input := inp, input_done := true, agg_done := false
        projected_set := ((k + 1 : Nat) : Int), grp_firstTuple := gft
        firstSlot := fs, pergroups := pgs } := by
  rw [agg_retrieve_step]
  dsimp only
  rw [if_neg (by simp), if_neg (by intro hc; exact hk hc.2),
    if_pos (Or.inl rfl)]
  rw [finalize_project]
  dsimp only
  have ht : ((k : Int) + 1).toNat = k + 1 := by omega
  have hc : ((k : Int) + 1) = ((k + 1 : Nat) : Int) := by omega
  rw [ht, hc, if_pos (hq (k + 1) (pgs.getD (k + 1) cfg.initG))]

theorem drain_tail {G : Type} (cfg : RetrieveConfig G)
    (hq : ∀ s g, cfg.qual s g = true)
    (inp : List Nat) (gft fs : Option Nat) (pgs : List G) :
    ∀ (d k fuel calls : Nat),
      k + d + 1 = max cfg.gset_lengths.length 1 →
      1 ≤ fuel → d + 1 ≤ calls →
      drain cfg fuel calls
        { input := inp, input_done := true, agg_done := false
          projected_set := (k : Int), grp_firstTuple := gft
          firstSlot := fs, pergroups := pgs } =
      (List.range' (k + 1) d).map (fun i => (i, pgs.getD i cfg.initG))
  | 0, k, fuel, calls, hn, hf, hc => by
      obtain ⟨f2, rfl⟩ : ∃ f2, fuel = f2 + 1 := ⟨fuel - 1, by omega⟩
      obtain ⟨c2, rfl⟩ : ∃ c2, calls = c2 + 1 := ⟨calls - 1, by omega⟩
      rw [drain, agg_retrieve_direct,
        step_tail_stop cfg inp gft fs pgs k (by omega)]
      rfl
  | d + 1, k, fuel, calls, hn, hf, hc => by
      obtain ⟨f2, rfl⟩ : ∃ f2, fuel = f2 + 1 := ⟨fuel - 1, by omega⟩
      obtain ⟨c2, rfl⟩ : ∃ c2, calls = c2 + 1 := ⟨calls - 1, by omega⟩
      rw [drain, agg_retrieve_direct,
        step_tail_row cfg hq inp gft fs pgs k (by omega)]
      dsimp only
      rw [drain_tail cfg hq inp gft fs pgs d (k + 1) (f2 + 1) c2
        (by omega) (by omega) (by omega)]
      rw [List.range'_succ, List.map_cons]

theorem step_done {G : Type} (cfg : RetrieveConfig G)
    (st : RetrieveState G) (h : st.agg_done = true) :
    agg_retrieve_step cfg st = StepResult.stop st := by
  rw [agg_retrieve_step, if_pos h]

theorem step_plain_empty {G : Type} (cfg : RetrieveConfig G)
    (hstrat : cfg.strategy = AggStrategy.plain)
    (hL : cfg.gset_lengths = [])
    (hq : ∀ s g, cfg.qual s g = true) :
    agg_retrieve_step cfg (init_retrieve_state cfg []) =
    StepResult.row (0, cfg.initG)
      { input := [], input_done := false, agg_done := true
        projected_set := 0, grp_firstTuple := none, firstSlot := none
        pergroups := [cfg.initG] } := by
  simp [agg_retrieve_step, init_retrieve_state, new_group,
    finalize_project, initialize_sets, hL, hstrat, hq]

theorem drain_plain_empty {G : Type} (cfg : RetrieveConfig G)
    (hstrat : cfg.strategy = AggStrategy.plain)
    (hL : cfg.gset_lengths = [])
    (hq : ∀ s g, cfg.qual s g = true) :
    ∀ fuel calls, 1 ≤ fuel → 2 ≤ calls →
      drain cfg fuel calls (init_retrieve_state cfg []) =
        [(0, cfg.initG)] := by
  intro fuel calls hf hc
  obtain ⟨f2, rfl⟩ : ∃ f2, fuel = f2 + 1 := ⟨fuel - 1, by omega⟩
  obtain ⟨c2, rfl⟩ : ∃ c2, calls = c2 + 1 := ⟨calls - 1, by omega⟩
  rw [drain, agg_retrieve_direct, step_plain_empty cfg hstrat hL hq]
  dsimp only
  obtain ⟨c3, rfl⟩ : ∃ c3, c2 = c3 + 1 := ⟨c2 - 1, by omega⟩
  rw [drain, agg_retrieve_direct, step_done cfg _ rfl]

theorem step_gsets_first {G : Type} (cfg : RetrieveConfig G)
    (hL : cfg.gset_lengths.length ≠ 0) :
    agg_retrieve_step cfg (init_retrieve_state cfg []) =
    (if max cfg.gset_lengths.length 1 ≤
        skip_nonempty_sets cfg.gset_lengths 0 then
      StepResult.again
        { input := [], input_done := true, agg_done := false
          projected_set := (skip_nonempty_sets cfg.gset_lengths 0 : Int)
          grp_firstTuple := none, firstSlot := none
          pergroups := List.replicate (max cfg.gset_lengths.length 1)
            cfg.initG }
    else
      finalize_project cfg
        { input := [], input_done := true, agg_done := false
          projected_set := (skip_nonempty_sets cfg.gset_lengths 0 : Int)
          grp_firstTuple := none, firstSlot := none
          pergroups := initialize_sets cfg
            (List.replicate (max cfg.gset_lengths.length 1) cfg.initG)
            (max cfg.gset_lengths.length 1) }) := by
  rw [init_retrieve_state, agg_retrieve_step]
  dsimp only
  rw [if_neg (by simp)]
  rw [if_neg (by simp)]
  rw [if_neg (by simp)]
  rw [new_group]
  dsimp only
  rw [if_pos hL]
  norm_num

theorem drain_gsets_empty {G : Type} (cfg : RetrieveConfig G)
    (hL : cfg.gset_lengths.length ≠ 0)
    (hq : ∀ s g, cfg.qual s g = true) :
    ∀ fuel calls, 2 ≤ fuel → cfg.gset_lengths.length + 1 ≤ calls →
      drain cfg fuel calls (init_retrieve_state cfg []) =
      (List.range' (skip_nonempty_sets cfg.gset_lengths 0)
        (cfg.gset_lengths.length -
          skip_nonempty_sets cfg.gset_lengths 0)).map
        (fun i => (i, cfg.initG)) := by
  intro fuel calls hf hc
  have hmax : max cfg.gset_lengths.length 1 = cfg.gset_lengths.length :=
    by omega
  obtain ⟨f2, rfl⟩ : ∃ f2, fuel = f2 + 1 := ⟨fuel - 1, by omega⟩
  obtain ⟨c2, rfl⟩ : ∃ c2, calls = c2 + 1 := ⟨calls - 1, by omega⟩
  rw [drain, agg_retrieve_direct, step_gsets_first cfg hL]
  by_cases hk : max cfg.gset_lengths.length 1 ≤
      skip_nonempty_sets cfg.gset_lengths 0
  · rw [if_pos hk]
    dsimp only
    obtain ⟨f3, rfl⟩ : ∃ f3, f2 = f3 + 1 := ⟨f2 - 1, by omega⟩
    rw [agg_retrieve_direct, step_tail_stop cfg [] none none _ _
      (by omega)]
    dsimp only
    rw [show cfg.gset_lengths.length -
      skip_nonempty_sets cfg.gset_lengths 0 = 0 from by omega]
    rfl
  · rw [if_neg hk]
    rw [initialize_sets_replicate cfg]
    rw [finalize_project]
    dsimp only
    set k := skip_nonempty_sets cfg.gset_lengths 0 with hkdef
    have hklt : k < cfg.gset_lengths.length := by omega
    have htn : ((k : Int)).toNat = k := by omega
    rw [htn]
    rw [if_pos (hq k ((List.replicate (max cfg.gset_lengths.length 1)
      cfg.initG).getD k cfg.initG))]
    dsimp only
    rw [drain_tail cfg hq [] none none _
      (cfg.gset_lengths.length - 1 - k) k (f2 + 1) c2 (by omega)
      (by omega) (by omega)]
    have hrep : ∀ i, i < cfg.gset_lengths.length →
        (List.replicate (max cfg.gset_lengths.length 1)
          cfg.initG).getD i cfg.initG = cfg.initG := by
      intro i hi
      exact getD_replicate_of_lt cfg.initG cfg.initG _ i (by omega)
    rw [hrep k hklt]
    have hmap : (List.range' (k + 1)
        (cfg.gset_lengths.length - 1 - k)).map
        (fun i => (i, (List.replicate (max cfg.gset_lengths.length 1)
          cfg.initG).getD i cfg.initG)) =
        (List.range' (k + 1) (cfg.gset_lengths.length - 1 - k)).map
        (fun i => (i, cfg.initG)) := by
      apply List.map_congr_left
      intro i hi
      have hbound := List.mem_range'_1.mp hi
      rw [hrep i (by omega)]
    rw [hmap]
    rw [show cfg.gset_lengths.length - k =
      (cfg.gset_lengths.length - 1 - k) + 1 from by omega]
    rw [List.range'_succ, List.map_cons]

/-- C7: with an empty child stream and the HAVING qual passing, a plain
(ungrouped) phase emits exactly one row, computed from the freshly
initialized transition states; a grouping-sets phase (set sizes listed
most-specific first, hence non-increasing) emits exactly one row per
grouping set of size 0 -- again from initialized states -- and no rows
for grouping sets with at least one grouping column. -/
theorem empty_input_rows {G : Type} (cfg : RetrieveConfig G)
    (hq : ∀ s g, cfg.qual s g = true) :
    (cfg.strategy = AggStrategy.plain → cfg.gset_lengths = [] →
      ∀ fuel calls, 1 ≤ fuel → 2 ≤ calls →
        drain cfg fuel calls (init_retrieve_state cfg []) =
          [(0, cfg.initG)]) ∧
    (cfg.gset_lengths.length ≠ 0 →
      (∀ i j : Nat, i ≤ j → j < cfg.gset_lengths.length →
        cfg.gset_lengths.getD j 0 ≤ cfg.gset_lengths.getD i 0) →
      ∀ fuel calls, 2 ≤ fuel → cfg.gset_lengths.length + 1 ≤ calls →
        drain cfg fuel calls (init_retrieve_state cfg []) =
          ((List.range cfg.gset_lengths.length).filter
            (fun i => cfg.gset_lengths.getD i 0 == 0)).map
            (fun i => (i, cfg.initG))) := by
  constructor
  · intro hstrat hL
    exact drain_plain_empty cfg hstrat hL hq
  · intro hL hmono fuel calls hf hc
    rw [drain_gsets_empty cfg hL hq fuel calls hf hc]
    have h := filter_skip_eq cfg.gset_lengths hmono
      cfg.gset_lengths.length 0 (by omega)
    rw [Nat.sub_zero] at h
    rw [List.range_eq_range', h]
    rfl

/-- Concrete plain-aggregation configuration. -/
def plainCfg : RetrieveConfig Nat :=
  { strategy := AggStrategy.plain
    gset_lengths := []
    numCols := 0
    initG := 42
    advanceG := fun g _ => g + 1
    prefixEq := fun _ _ _ => true
    qual := fun _ _ => true }

/-- Concrete grouping-sets configuration: one rollup with set sizes
`[2, 1, 0]`. -/
def gsetsCfg : RetrieveConfig Nat :=
  { plainCfg with
    strategy := AggStrategy.sorted
    gset_lengths := [2, 1, 0] }

theorem empty_input_rows_witness :
    drain plainCfg 1 2 (init_retrieve_state plainCfg []) =
      [(0, plainCfg.initG)] ∧
    drain gsetsCfg 2 4 (init_retrieve_state gsetsCfg []) =
      ((List.range gsetsCfg.gset_lengths.length).filter
        (fun i => gsetsCfg.gset_lengths.getD i 0 == 0)).map
        (fun i => (i, gsetsCfg.initG)) :=
  ⟨(empty_input_rows plainCfg (fun _ _ => rfl)).1 rfl rfl 1 2
      (by decide) (by decide),
   (empty_input_rows gsetsCfg (fun _ _ => rfl)).2 (by decide)
     (by
       intro i j hij hj
       have hj3 : j < 3 := by
         simpa [gsetsCfg, plainCfg] using hj
       interval_cases j <;> interval_cases i <;> decide)
     2 4 (by decide) (by decide)⟩

end NodeAgg
